import Mathlib

/-!
A formal model of the MUST-have-plugin repository (src/index.js), which ships
two build artifacts of the same plugin: a compiled JavaScript variant and the
TypeScript variant.  The model covers the replacement engine
(`applyReplacements` in both variants), the JSONC configuration decoder
(`parseJSONC`) and the configuration loader (`loadConfig`).

Modelling conventions:
* JavaScript strings are modelled as `List Char` (claims only involve ASCII
  text, where UTF-16 code units and code points coincide); the public entry
  points take Lean `String`s and convert.
* JavaScript `Map` objects (insertion-ordered, set-overwrites-in-place) are
  modelled as association lists with `mapGet` / `mapSet`.
* The combined regular expression built by `applyReplacements` is modelled by
  its matching semantics: at each candidate position the alternatives
  (the phrases, sorted by descending length as the source sorts them) are
  tried in order, the first matching alternative wins, and the scan looks for
  the leftmost such position.  `escapeRegex` makes every phrase a literal
  pattern, so phrases are matched literally (case-insensitively, modelled by
  ASCII case folding, `lowerChar`, on both sides).
* The `exec`/`replace` loops are modelled with explicit fuel
  (`text.length + 2` suffices for every terminating run); a `none` result
  models a non-terminating loop (possible only with an empty phrase in the
  TypeScript variant, whose `exec` loop does not advance on zero-width
  matches).
-/

namespace MustHave

/-- ASCII letter, the `[a-zA-Z]` character class of the source patterns. -/
def isAsciiLetter (c : Char) : Bool :=
  (97 ≤ c.toNat && c.toNat ≤ 122) || (65 ≤ c.toNat && c.toNat ≤ 90)

/-- ASCII digit `[0-9]`. -/
def isDigitChar (c : Char) : Bool :=
  48 ≤ c.toNat && c.toNat ≤ 57

/-- JavaScript word character `\w = [A-Za-z0-9_]`, used by `\b`. -/
def isWordChar (c : Char) : Bool :=
  isAsciiLetter c || isDigitChar c || c == '_'

/-- The character class `[a-zA-Z*_]` excluded by the TypeScript variant's
lookbehind/lookahead boundary assertions. -/
def tsExcluded (c : Char) : Bool :=
  isAsciiLetter c || c == '*' || c == '_'

/-- JavaScript's `\s` whitespace class (as tested by `/\s$/`). -/
def jsSpace (c : Char) : Bool :=
  [' ', '\t', '\n', '\r', '\x0b', '\x0c', '\u00A0', '\u1680', '\u2028',
   '\u2029', '\u202F', '\u205F', '\u3000', '\uFEFF'].contains c ||
  ('\u2000' ≤ c && c ≤ '\u200A')

/-- ASCII case folding of one character (`toLowerCase` and the behaviour of
the `i` flag on the claims' ASCII texts). -/
def lowerChar (c : Char) : Char :=
  if 65 ≤ c.toNat ∧ c.toNat ≤ 90 then Char.ofNat (c.toNat + 32) else c

/-- `toLowerCase`, character-wise. -/
def lowerL (s : List Char) : List Char :=
  s.map lowerChar

/-- `text.slice(a, b)` for `0 ≤ a`, clamping like JavaScript (`""` when
`a ≥ b`). -/
def slice (t : List Char) (a b : Nat) : List Char :=
  (t.drop a).take (b - a)

/-- `Map.prototype.get`: first (unique) binding of the key. -/
def mapGet {α : Type} (m : List (List Char × α)) (k : List Char) : Option α :=
  (m.find? (fun p => p.1 == k)).map (·.2)

/-- `Map.prototype.set`: overwrite in place when present, append otherwise. -/
def mapSet {α : Type} : List (List Char × α) → List Char → α → List (List Char × α)
  | [], k, v => [(k, v)]
  | p :: rest, k, v =>
    if p.1 == k then (k, v) :: rest else p :: mapSet rest k v

/-- `counts.set(k, (counts.get(k) || 0) + 1)`. -/
def bump (m : List (List Char × Nat)) (k : List Char) : List (List Char × Nat) :=
  match mapGet m k with
  | some n => mapSet m k (n + 1)
  | none => mapSet m k 1

/-- Insert a phrase into a list already sorted by descending length, after
every strictly longer phrase (so that the overall sort is stable, as
`Array.prototype.sort` is). -/
def insertKey (x : List Char) : List (List Char) → List (List Char)
  | [] => [x]
  | y :: ys => if y.length > x.length then y :: insertKey x ys else x :: y :: ys

/-- `keys.sort((a, b) => b.length - a.length)`: stable sort by descending
phrase length. -/
def sortKeysDesc : List (List Char) → List (List Char)
  | [] => []
  | x :: xs => insertKey x (sortKeysDesc xs)

/-- Case-insensitive literal prefix match: the escaped phrase `k`, matched
with the `i` flag, matches at the head of `s`. -/
def matchesKey : List Char → List Char → Bool
  | [], _ => true
  | _ :: _, [] => false
  | k :: ks, c :: cs => (lowerChar k == lowerChar c) && matchesKey ks cs

/-- `true` when the character at index `i` (if any) is not in `[a-zA-Z*_]`;
positions outside the text satisfy the lookaround vacuously. -/
def notExcludedAt (t : List Char) (i : Nat) : Bool :=
  match t[i]? with
  | some c => !tsExcluded c
  | none => true

/-- One alternative `(?<![a-zA-Z*_])key(?![a-zA-Z*_])` of the TypeScript
variant's combined pattern, tested at position `i`. -/
def keyMatchTS (t : List Char) (i : Nat) (k : List Char) : Bool :=
  (decide (i = 0) || notExcludedAt t (i - 1)) &&
  matchesKey k (t.drop i) &&
  notExcludedAt t (i + k.length)

/-- Whether the character at index `i` is a `\w` word character (positions
outside the text count as non-word). -/
def wordAt (t : List Char) (i : Nat) : Bool :=
  match t[i]? with
  | some c => isWordChar c
  | none => false

/-- JavaScript's `\b` assertion at position `i`. -/
def jsBoundary (t : List Char) (i : Nat) : Bool :=
  if i = 0 then wordAt t 0 else wordAt t (i - 1) != wordAt t i

/-- One alternative `\bkey\b` of the compiled JavaScript variant's combined
pattern, tested at position `i`. -/
def keyMatchJS (t : List Char) (i : Nat) (k : List Char) : Bool :=
  jsBoundary t i && matchesKey k (t.drop i) && jsBoundary t (i + k.length)

/-- Scan positions `j, j+1, …` (bounded by fuel) for the first position where
some alternative matches; alternatives are tried in `keys` order, as a
regular-expression alternation does. -/
def findMatchAux (altB : List Char → Nat → List Char → Bool)
    (keys : List (List Char)) (t : List Char) :
    Nat → Nat → Option (Nat × List Char)
  | 0, _ => none
  | fuel + 1, j =>
    match keys.find? (fun k => altB t j k) with
    | some k => some (j, k)
    | none => findMatchAux altB keys t fuel (j + 1)

/-- Leftmost match of the combined pattern at or after position `pos`
(`exec` with `lastIndex = pos`): returns the match position and the phrase
(alternative) that matched there. -/
def findMatch (altB : List Char → Nat → List Char → Bool)
    (keys : List (List Char)) (t : List Char) (pos : Nat) :
    Option (Nat × List Char) :=
  findMatchAux altB keys t (t.length + 1 - pos) pos

/-- `replacements[key]` for a key drawn from `Object.keys(replacements)`
(always present; the `[]` default is never reached). -/
def recGet (rules : List (List Char × List Char)) (k : List Char) : List Char :=
  ((rules.find? (fun p => p.1 == k)).map (·.2)).getD []

/-- The case-insensitive lookup map:
`for (const key of sortedKeys) lookup.set(key.toLowerCase(), replacements[key])`. -/
def buildLookup (rules : List (List Char × List Char))
    (sorted : List (List Char)) : List (List Char × List Char) :=
  sorted.foldl (fun m k => mapSet m (lowerL k) (recGet rules k)) []

/-- `/\s$/.test(s)`: the last character is JavaScript whitespace. -/
def endsInWS (s : List Char) : Bool :=
  match s.getLast? with
  | some c => jsSpace c
  | none => false

/-- The `exec` loop of the TypeScript variant's `applyReplacements`
(src/index.js lines 484–503).  State: `rp` is the regex's own `lastIndex`,
`cp` the local `lastIndex` variable (they differ only after the
whitespace-collapsing step), `acc` the `result` accumulator, `cts` the
`counts` map.  `none` models a non-terminating loop (zero-width matches). -/
def tsScanAux (keys : List (List Char)) (lk : List (List Char × List Char))
    (t : List Char) :
    Nat → Nat → Nat → List Char → List (List Char × Nat) →
    Option (List Char × List (List Char × Nat))
  | 0, _, _, _, _ => none
  | fuel + 1, rp, cp, acc, cts =>
    match findMatch keyMatchTS keys t rp with
    | none => some (acc ++ t.drop cp, cts)
    | some (j, k) =>
      let m := slice t j (j + k.length)
      match mapGet lk (lowerL m) with
      | some rep =>
        if rep.isEmpty then
          -- `if (replacement)` is false for the empty string: copy the match
          tsScanAux keys lk t fuel (j + k.length) (j + k.length)
            (acc ++ slice t cp j ++ m) cts
        else
          let np := j + k.length
          let cp' := if endsInWS rep && (t[np]? == some ' ') then np + 1 else np
          tsScanAux keys lk t fuel np cp'
            (acc ++ slice t cp j ++ rep) (bump cts (lowerL m))
      | none =>
        tsScanAux keys lk t fuel (j + k.length) (j + k.length)
          (acc ++ slice t cp j ++ m) cts

/-- The `text.replace(combinedPattern, fn)` pass of the compiled JavaScript
variant's `applyReplacements` (src/index.js lines 166–192), per the
`RegExp.prototype[Symbol.replace]` algorithm.  State: `sp` is the search
position (`lastIndex`, advanced by one past a zero-width match), `tp` the
`nextSourcePosition` from which unmatched text is copied. -/
def jsScanAux (keys : List (List Char)) (lk : List (List Char × List Char))
    (t : List Char) :
    Nat → Nat → Nat → List Char → List (List Char × Nat) →
    Option (List Char × List (List Char × Nat))
  | 0, _, _, _, _ => none
  | fuel + 1, sp, tp, acc, cts =>
    match findMatch keyMatchJS keys t sp with
    | none => some (acc ++ t.drop tp, cts)
    | some (j, k) =>
      let m := slice t j (j + k.length)
      let sp' := if k.length = 0 then j + 1 else j + k.length
      match mapGet lk (lowerL m) with
      | some rep =>
        if rep.isEmpty then
          jsScanAux keys lk t fuel sp' (j + k.length)
            (acc ++ slice t tp j ++ m) cts
        else
          jsScanAux keys lk t fuel sp' (j + k.length)
            (acc ++ slice t tp j ++ rep) (bump cts (lowerL m))
      | none =>
        jsScanAux keys lk t fuel sp' (j + k.length)
          (acc ++ slice t tp j ++ m) cts

/-- The TypeScript variant's `applyReplacements` (src/index.js 457–506) on
`List Char` text.  `none` models the (non-terminating) zero-width-match
loop; every terminating run is `some`. -/
def applyRepl (t : List Char) (rules : List (List Char × List Char)) :
    Option (List Char × List (List Char × Nat)) :=
  if rules.isEmpty then some (t, [])
  else
    let sorted := sortKeysDesc (rules.map (·.1))
    let lk := buildLookup rules sorted
    tsScanAux sorted lk t (t.length + 2) 0 0 [] []

/-- The compiled JavaScript variant's `applyReplacements`
(src/index.js 166–192) on `List Char` text. -/
def applyReplJS (t : List Char) (rules : List (List Char × List Char)) :
    Option (List Char × List (List Char × Nat)) :=
  if rules.isEmpty then some (t, [])
  else
    let sorted := sortKeysDesc (rules.map (·.1))
    let lk := buildLookup rules sorted
    jsScanAux sorted lk t (t.length + 2) 0 0 [] []

/-- String-level entry point of the TypeScript variant's
`applyReplacements`. -/
def applyReplacements (text : String) (replacements : List (String × String)) :
    Option (String × List (String × Nat)) :=
  (applyRepl text.data (replacements.map (fun p => (p.1.data, p.2.data)))).map
    (fun r => (String.mk r.1, r.2.map (fun q => (String.mk q.1, q.2))))

/-- String-level entry point of the compiled JavaScript variant's
`applyReplacements`. -/
def applyReplacementsJS (text : String) (replacements : List (String × String)) :
    Option (String × List (String × Nat)) :=
  (applyReplJS text.data (replacements.map (fun p => (p.1.data, p.2.data)))).map
    (fun r => (String.mk r.1, r.2.map (fun q => (String.mk q.1, q.2))))

/-! ## JSONC configuration decoder (`parseJSONC`, src/index.js 354–391) -/

/-- The quote-aware scan of one line (the body of the `lines.map` callback):
on `//` outside a string the line is truncated there; `\` sets the
escape-pending flag (even outside strings, as in the source); `"` toggles the
in-string flag. -/
def stripLine : List Char → Bool → Bool → List Char
  | [], _, _ => []
  | c :: cs, inStr, esc =>
    if esc then c :: stripLine cs inStr false
    else if c == '\\' then c :: stripLine cs inStr true
    else if c == '"' then c :: stripLine cs (!inStr) false
    else if c == '/' && cs.head? == some '/' && !inStr then []
    else c :: stripLine cs inStr esc

/-- `content.split("\n")`. -/
def splitNL : List Char → List (List Char)
  | [] => [[]]
  | c :: rest =>
    if c == '\n' then [] :: splitNL rest
    else
      match splitNL rest with
      | [] => [[c]]
      | l :: ls => (c :: l) :: ls

/-- `lines.join("\n")`. -/
def joinNL : List (List Char) → List Char
  | [] => []
  | [l] => l
  | l :: ls => l ++ '\n' :: joinNL ls

/-- The single-line comment pass: split, strip each line, rejoin. -/
def stripLineComments (content : List Char) : List Char :=
  joinNL ((splitNL content).map (fun l => stripLine l false false))

/-- Whether `*/` occurs in the remaining text (so the non-greedy block
pattern can complete a match). -/
def hasClose : List Char → Bool
  | '*' :: '/' :: _ => true
  | _ :: rest => hasClose rest
  | [] => false

/-- Drop up to and including the first `*/`. -/
def dropClose : List Char → List Char
  | '*' :: '/' :: rest => rest
  | _ :: rest => dropClose rest
  | [] => []

/-- `stripped.replace(/\/\*[\s\S]*?\*\//g, "")`: repeatedly remove the
leftmost `/* … */` span (shortest, by non-greediness); a `/*` with no later
`*/` matches nothing. -/
def stripBlockAux : Nat → List Char → List Char
  | 0, s => s
  | fuel + 1, s =>
    match s with
    | '/' :: '*' :: rest =>
      if hasClose rest then stripBlockAux fuel (dropClose rest)
      else '/' :: '*' :: rest
    | c :: rest => c :: stripBlockAux fuel rest
    | [] => []

def stripBlockComments (s : List Char) : List Char :=
  stripBlockAux (s.length + 1) s

/-- Maximal run of `\s` whitespace at the head of the text. -/
def peelWs : List Char → List Char × List Char
  | [] => ([], [])
  | c :: r =>
    if jsSpace c then
      match peelWs r with
      | (w, r') => (c :: w, r')
    else ([], c :: r)

/-- `noMultiLine.replace(/,(\s*[}\]])/g, "$1")`: drop each comma that is
followed by whitespace and then a closing `}` or `]` (quote-unaware, exactly
as the source's regex). -/
def stripCommasAux : Nat → List Char → List Char
  | 0, s => s
  | fuel + 1, s =>
    match s with
    | ',' :: rest =>
      match peelWs rest with
      | (w, b :: r') =>
        if b == '}' || b == ']' then w ++ b :: stripCommasAux fuel r'
        else ',' :: stripCommasAux fuel rest
      | (_, []) => ',' :: stripCommasAux fuel rest
    | c :: rest => c :: stripCommasAux fuel rest
    | [] => []

def stripTrailingCommas (s : List Char) : List Char :=
  stripCommasAux (s.length + 1) s

/-- Structured values produced by `JSON.parse`.  Numbers keep their raw
literal (the claims' documents compare equal literals only); object fields
are insertion-ordered with later duplicates overwriting in place, as in
JavaScript. -/
inductive Json where
  | null : Json
  | bool : Bool → Json
  | num : List Char → Json
  | str : List Char → Json
  | arr : List Json → Json
  | obj : List (List Char × Json) → Json

/-- JSON whitespace (space, tab, line feed, carriage return). -/
def jsonWs (c : Char) : Bool :=
  [' ', '\x09', '\x0a', '\x0d'].contains c

/-- Drop leading JSON whitespace. -/
def skipWs : List Char → List Char
  | [] => []
  | c :: r => if jsonWs c then skipWs r else c :: r

def parseHexDigit (c : Char) : Option Nat :=
  let n := c.toNat
  if 48 ≤ n && n ≤ 57 then some (n - 48)
  else if 97 ≤ n && n ≤ 102 then some (n - 87)
  else if 65 ≤ n && n ≤ 70 then some (n - 55)
  else none

/-- Accumulate `count` hex digits into a code point value. -/
def hexAux : Nat → Nat → List Char → Option (Nat × List Char)
  | 0, acc, s => some (acc, s)
  | count + 1, acc, s =>
    match s with
    | c :: r =>
      match parseHexDigit c with
      | some d => hexAux count (acc * 16 + d) r
      | none => none
    | [] => none

/-- JSON string body after the opening quote: returns the decoded content
and the rest after the closing quote. -/
def parseStringBody : Nat → List Char → Option (List Char × List Char)
  | 0, _ => none
  | fuel + 1, s =>
    match s with
    | '"' :: r => some ([], r)
    | '\\' :: e :: r =>
      let cont := fun (c : Char) (r' : List Char) =>
        (parseStringBody fuel r').map (fun p => (c :: p.1, p.2))
      if e == '"' then cont '"' r
      else if e == '\\' then cont '\\' r
      else if e == '/' then cont '/' r
      else if e == 'b' then cont '\x08' r
      else if e == 'f' then cont '\x0c' r
      else if e == 'n' then cont '\n' r
      else if e == 'r' then cont '\r' r
      else if e == 't' then cont '\t' r
      else if e == 'u' then
        match hexAux 4 0 r with
        | some (n, r') => cont (Char.ofNat n) r'
        | none => none
      else none
    | c :: r =>
      if c.toNat < 32 then none
      else (parseStringBody fuel r).map (fun p => (c :: p.1, p.2))
    | [] => none

/-- Maximal digit run. -/
def takeDigits : List Char → List Char × List Char
  | [] => ([], [])
  | c :: r =>
    if isDigitChar c then
      match takeDigits r with
      | (d, r') => (c :: d, r')
    else ([], c :: r)

/-- JSON number literal (kept raw): `-?(0|[1-9][0-9]*)(.[0-9]+)?([eE][+-]?[0-9]+)?`. -/
def parseNumber (s : List Char) : Option (List Char × List Char) :=
  let (neg, s1) := match s with
    | '-' :: r => (['-'], r)
    | _ => (([] : List Char), s)
  match s1 with
  | c :: r =>
    if c == '0' then
      parseNumTail (neg ++ [c]) r
    else if isDigitChar c then
      match takeDigits r with
      | (d, r') => parseNumTail (neg ++ c :: d) r'
    else none
  | [] => none
where
  parseNumTail (intPart : List Char) (s : List Char) : Option (List Char × List Char) :=
    let (fracPart, s2) : List Char × List Char := match s with
      | '.' :: r =>
        match takeDigits r with
        | ([], _) => ([], '.' :: r)
        | (d, r') => ('.' :: d, r')
      | _ => ([], s)
    let fracFailed : Bool := match s, fracPart with
      | '.' :: _, [] => true
      | _, _ => false
    if fracFailed then none
    else
      match s2 with
      | e :: r =>
        if e == 'e' || e == 'E' then
          let (sgn, r1) : List Char × List Char := match r with
            | '+' :: r' => (['+'], r')
            | '-' :: r' => (['-'], r')
            | _ => ([], r)
          match takeDigits r1 with
          | ([], _) => none
          | (d, r') => some (intPart ++ fracPart ++ e :: sgn ++ d, r')
        else some (intPart ++ fracPart, e :: r)
      | [] => some (intPart ++ fracPart, [])

/-- Consume an exact literal keyword at the head of the text. -/
def dropLit (lit s : List Char) : Option (List Char) :=
  if lit.isPrefixOf s then some (s.drop lit.length) else none

/-- A scalar JSON value (`true`, `false`, `null`, or a number literal) at the
head of the (whitespace-stripped) text. -/
def parseScalar (s : List Char) : Option (Json × List Char) :=
  match dropLit ("true".data) s with
  | some r => some (.bool true, r)
  | none =>
  match dropLit ("false".data) s with
  | some r => some (.bool false, r)
  | none =>
  match dropLit ("null".data) s with
  | some r => some (.null, r)
  | none =>
  match s with
  | c :: r =>
    if c == '-' || isDigitChar c then
      (parseNumber (c :: r)).map (fun p => (.num p.1, p.2))
    else none
  | [] => none

mutual

/-- Strict JSON value parser (`JSON.parse`), fuel-indexed. -/
def parseValue : Nat → List Char → Option (Json × List Char)
  | 0, _ => none
  | fuel + 1, s =>
    match skipWs s with
    | '{' :: r =>
      (match skipWs r with
       | '}' :: r' => some (.obj [], r')
       | r' => parseMembers fuel r' [])
    | '[' :: r =>
      (match skipWs r with
       | ']' :: r' => some (.arr [], r')
       | r' => parseElems fuel r' [])
    | '"' :: r => (parseStringBody (r.length + 1) r).map (fun p => (.str p.1, p.2))
    | s' => parseScalar s'

/-- Object members after `{` (first member not yet parsed). -/
def parseMembers : Nat → List Char → List (List Char × Json) →
    Option (Json × List Char)
  | 0, _, _ => none
  | fuel + 1, s, acc =>
    match skipWs s with
    | '"' :: r =>
      match parseStringBody (r.length + 1) r with
      | none => none
      | some (key, r1) =>
        match skipWs r1 with
        | ':' :: r2 =>
          match parseValue fuel r2 with
          | none => none
          | some (v, r3) =>
            let acc' := mapSet acc key v
            match skipWs r3 with
            | ',' :: r4 => parseMembers fuel r4 acc'
            | '}' :: r4 => some (.obj acc', r4)
            | _ => none
        | _ => none
    | _ => none

/-- Array elements after `[` (first element not yet parsed). -/
def parseElems : Nat → List Char → List Json → Option (Json × List Char)
  | 0, _, _ => none
  | fuel + 1, s, acc =>
    match parseValue fuel s with
    | none => none
    | some (v, r) =>
      match skipWs r with
      | ',' :: r' => parseElems fuel r' (acc ++ [v])
      | ']' :: r' => some (.arr (acc ++ [v]), r')
      | _ => none

end

/-- `JSON.parse`: a single value with only whitespace around it. -/
def jsonParse (s : List Char) : Option Json :=
  match parseValue (2 * s.length + 4) s with
  | some (v, rest) => if (skipWs rest).isEmpty then some v else none
  | none => none

/-- `parseJSONC` (src/index.js 354–391): strip quote-aware line comments,
then block comments, then trailing commas, then parse strictly.  `none`
models the thrown `SyntaxError`. -/
def parseJSONCChars (content : List Char) : Option Json :=
  jsonParse (stripTrailingCommas (stripBlockComments (stripLineComments content)))

/-- String-level entry point of `parseJSONC`. -/
def parseJSONC (content : String) : Option Json :=
  parseJSONCChars content.data

/-! ## Configuration loading (`loadConfig`, src/index.js 418–441) -/

/-- `RFC2119_DEFAULTS` as the structured value `JSON.parse` would produce. -/
def rfcDefaultsJson : Json :=
  .obj [("must".data, .str "MUST".data),
        ("must not".data, .str "MUST NOT".data),
        ("required".data, .str "REQUIRED".data),
        ("shall".data, .str "SHALL".data),
        ("shall not".data, .str "SHALL NOT".data),
        ("should".data, .str "SHOULD".data),
        ("should not".data, .str "SHOULD NOT".data),
        ("recommended".data, .str "RECOMMENDED".data),
        ("not recommended".data, .str "NOT RECOMMENDED".data),
        ("may".data, .str "MAY".data),
        ("optional".data, .str "OPTIONAL".data)]

/-- JavaScript truthiness of a structured value (`parsed.replacements || {}`).
A number is falsy exactly when its value is zero, i.e. its mantissa has no
nonzero digit. -/
def truthy : Json → Bool
  | .null => false
  | .bool b => b
  | .num raw => (raw.takeWhile (fun c => c != 'e' && c != 'E')).any
      (fun c => '1' ≤ c && c ≤ '9')
  | .str s => !s.isEmpty
  | .arr _ => true
  | .obj _ => true

/-- Property access `v.field` on a structured value: a lookup on objects,
`undefined` (`none`) on non-null primitives and arrays.  (Access on `null`
throws; `loadConfig` models that case separately.) -/
def getField : Json → List Char → Option Json
  | .obj fields, k => mapGet fields k
  | _, _ => none

/-- The configuration record returned by `loadConfig`. -/
structure LoadedConfig where
  debug : Bool
  replacements : Json

/-- `loadConfig` (src/index.js 418–441), modelled on the content of an
existing config file.  A decode failure is caught and yields the built-in
defaults; so does `parseJSONC` returning `null`, on which the property
access `parsed.debug` throws.  Otherwise `debug` is `parsed.debug === true`
and `replacements` is `parsed.replacements || {}` (the empty object when the
field is missing or falsy).  The missing-file path returns the same default
record. -/
def loadConfig (content : String) : LoadedConfig :=
  match parseJSONC content with
  | none => ⟨false, rfcDefaultsJson⟩
  | some .null => ⟨false, rfcDefaultsJson⟩
  | some v =>
    ⟨(match getField v "debug".data with
      | some (.bool true) => true
      | _ => false),
     (match getField v "replacements".data with
      | some r => if truthy r then r else .obj []
      | none => .obj [])⟩

/-! ## Ghost instrumentation: decomposition of a scan into match spans

These definitions are theorem-side vocabulary (not part of the source): a
successful scan is characterised as a list of match spans, each standing for
one iteration of the `exec` loop, with the text outside the spans copied
through literally. -/

/-- One match of the combined pattern during a scan: the source position, the
phrase (alternative) that matched, the text emitted for it (`rep`), whether a
configured replacement was applied (`replaced`; otherwise the match itself is
copied through), and how many extra characters after the matched span were
consumed by the whitespace-collapsing step (`extra`). -/
structure MSpan where
  start : Nat
  key : List Char
  rep : List Char
  replaced : Bool
  extra : Nat

/-- The number of extra characters the whitespace-collapsing step consumes
after a match ending at `np`: one when a replacement was applied, it ends in
whitespace and the original text continues with a space; zero otherwise. -/
def extraOf (replaced : Bool) (rep : List Char) (t : List Char) (np : Nat) : Nat :=
  if replaced && endsInWS rep && (t[np]? == some ' ') then 1 else 0

/-- The slice of the original text covered by a span's match. -/
def matchedSlice (t : List Char) (s : MSpan) : List Char :=
  slice t s.start (s.start + s.key.length)

/-- Rebuild the output from position `cp` onward: literal text up to each
span, that span's emitted text, then (skipping the matched span and any
collapsed space) the rest; after the last span the tail is copied through. -/
def renderSpans (t : List Char) : List MSpan → Nat → List Char
  | [], cp => t.drop cp
  | s :: rest, cp =>
    slice t cp s.start ++ s.rep ++ renderSpans t rest (s.start + s.key.length + s.extra)

/-- Replay the count updates of a span list onto a counts map. -/
def tallySpans (t : List Char) : List MSpan → List (List Char × Nat) → List (List Char × Nat)
  | [], cts => cts
  | s :: rest, cts =>
    tallySpans t rest (if s.replaced then bump cts (lowerL (matchedSlice t s)) else cts)

/-- The number of spans that performed a substitution whose lowercased
matched text is `k`. -/
def countSpans (t : List Char) (spans : List MSpan) (k : List Char) : Nat :=
  spans.countP (fun s => s.replaced && (lowerL (matchedSlice t s) == k))

/-- Well-formedness of a span list relative to scan position `rp`: each span
is the leftmost match of the combined pattern from the previous scan
position, its emitted text and `replaced` flag agree with the lookup map
(`if (replacement)`), and `extra` is exactly what the whitespace-collapsing
step consumes. -/
def SpansWF (keys : List (List Char)) (lk : List (List Char × List Char))
    (t : List Char) : Nat → List MSpan → Prop
  | _, [] => True
  | rp, s :: rest =>
    findMatch keyMatchTS keys t rp = some (s.start, s.key) ∧
    ((s.replaced = true ∧ mapGet lk (lowerL (matchedSlice t s)) = some s.rep ∧ s.rep ≠ []) ∨
     (s.replaced = false ∧ s.rep = matchedSlice t s ∧
       (mapGet lk (lowerL (matchedSlice t s)) = none ∨
        mapGet lk (lowerL (matchedSlice t s)) = some []))) ∧
    s.extra = extraOf s.replaced s.rep t (s.start + s.key.length) ∧
    SpansWF keys lk t (s.start + s.key.length) rest

/-- Ordering and bounds of a span list: each span starts at or after the
given position, fits inside the text, and the next span starts at or after
its end. -/
def SpansOrdered (t : List Char) : Nat → List MSpan → Prop
  | _, [] => True
  | pos, s :: rest =>
    pos ≤ s.start ∧ s.start + s.key.length ≤ t.length ∧
    SpansOrdered t (s.start + s.key.length) rest

/-! ## Hypothesis vocabulary for the variant-equivalence claim -/

/-- A phrase that begins and ends with an ASCII letter (in particular it is
non-empty).  For such phrases `\b` behaves as a character test at both match
edges. -/
def phraseOK (k : List Char) : Bool :=
  match k.head?, k.getLast? with
  | some a, some b => isAsciiLetter a && isAsciiLetter b
  | _, _ => false

/-- A text containing no ASCII digit, `*`, or `_`: on such text the `\b`
word class and the `[a-zA-Z*_]` exclusion class coincide. -/
def textOK (t : List Char) : Bool :=
  t.all (fun c => !isDigitChar c && c != '*' && c != '_')

/-! ## Concrete configuration documents used by the decoder claims -/

/-- A JSONC document with a `//` line comment, a `/* */` block comment, a
trailing comma before `}` — and a string literal `",}"` on which the
quote-unaware trailing-comma pass misfires. -/
def badDoc : String := "\x7b // top\n  /* block */ \"a\": \",\x7d\",\n  \"b\": \"x\",\n\x7d"

/-- `badDoc` with the comments and the trailing comma removed by hand (the
string literal kept intact). -/
def cleanBadDoc : String := "\x7b\n  \"a\": \",\x7d\",\n  \"b\": \"x\"\n\x7d"

/-- A representative JSONC document with a `//` line comment, a `//` inside
a quoted string value, a `/* */` block comment and a trailing comma, and no
string content that the quote-unaware passes could misread. -/
def goodDoc : String :=
  "\x7b\n  // comment\n  \"url\": \"http://example\", /* b */\n  \"must\": \"MUST\",\n\x7d"

/-- `goodDoc` with the comments and the trailing comma removed by hand. -/
def cleanGoodDoc : String := "\x7b\n  \"url\": \"http://example\",\n  \"must\": \"MUST\"\n\x7d"

/-! ## Basic lemmas -/

lemma isAsciiLetter_iff {c : Char} :
    isAsciiLetter c = true ↔
      (97 ≤ c.toNat ∧ c.toNat ≤ 122) ∨ (65 ≤ c.toNat ∧ c.toNat ≤ 90) := by
  simp [isAsciiLetter]

lemma toNat_ofNat_valid {n : Nat} (h : n.isValidChar) : (Char.ofNat n).toNat = n := by
  simp [Char.ofNat, Char.toNat, h, Char.ofNatAux, UInt32.toNat, BitVec.toNat_ofNatLt]

lemma lowerChar_toNat (c : Char) :
    (lowerChar c).toNat =
      if 65 ≤ c.toNat ∧ c.toNat ≤ 90 then c.toNat + 32 else c.toNat := by
  unfold lowerChar
  split
  case isTrue h =>
    have hv : (c.toNat + 32).isValidChar := Or.inl (by omega)
    simp [toNat_ofNat_valid hv]
  case isFalse h => rfl

lemma lowerChar_letter {a c : Char} (ha : isAsciiLetter a = true)
    (h : lowerChar a = lowerChar c) : isAsciiLetter c = true := by
  have h' : (lowerChar a).toNat = (lowerChar c).toNat := congrArg Char.toNat h
  rw [lowerChar_toNat, lowerChar_toNat] at h'
  rw [isAsciiLetter_iff] at ha ⊢
  split at h' <;> split at h' <;> omega

lemma matchesKey_length : ∀ (k s : List Char), matchesKey k s = true → k.length ≤ s.length := by
  intro k
  induction k with
  | nil => simp
  | cons a ks ih =>
    intro s h
    cases s with
    | nil => simp [matchesKey] at h
    | cons c cs =>
      simp only [matchesKey, Bool.and_eq_true] at h
      have := ih cs h.2
      simp only [List.length_cons]
      omega

lemma matchesKey_get :
    ∀ (k s : List Char), matchesKey k s = true →
      ∀ (r : Nat) (ck : Char), k[r]? = some ck →
        ∃ cs, s[r]? = some cs ∧ lowerChar ck = lowerChar cs := by
  intro k
  induction k with
  | nil => intro s _ r ck h; simp at h
  | cons a ks ih =>
    intro s h r ck hget
    cases s with
    | nil => simp [matchesKey] at h
    | cons c cs =>
      simp only [matchesKey, Bool.and_eq_true, beq_iff_eq] at h
      cases r with
      | zero =>
        have hck : a = ck := by simpa using hget
        subst hck
        exact ⟨c, by simp, h.1⟩
      | succ r =>
        rw [List.getElem?_cons_succ] at hget
        rw [List.getElem?_cons_succ]
        exact ih cs h.2 r ck hget

lemma findMatchAux_ge (altB : List Char → Nat → List Char → Bool)
    (keys : List (List Char)) (t : List Char) :
    ∀ (fuel j j' : Nat) (k : List Char),
      findMatchAux altB keys t fuel j = some (j', k) → j ≤ j' ∧ j' < j + fuel := by
  intro fuel
  induction fuel with
  | zero => intro j j' k h; simp [findMatchAux] at h
  | succ f ih =>
    intro j j' k h
    rw [findMatchAux] at h
    cases hf : keys.find? (fun k => altB t j k) with
    | some k0 =>
      rw [hf] at h
      have hj : j = j' := by simpa using congrArg (Option.map Prod.fst) h
      omega
    | none =>
      rw [hf] at h
      have := ih (j + 1) j' k h
      omega

lemma findMatchAux_spec (altB : List Char → Nat → List Char → Bool)
    (keys : List (List Char)) (t : List Char) :
    ∀ (fuel j j' : Nat) (k : List Char),
      findMatchAux altB keys t fuel j = some (j', k) →
        k ∈ keys ∧ altB t j' k = true ∧
        keys.find? (fun k0 => altB t j' k0) = some k := by
  intro fuel
  induction fuel with
  | zero => intro j j' k h; simp [findMatchAux] at h
  | succ f ih =>
    intro j j' k h
    rw [findMatchAux] at h
    cases hf : keys.find? (fun k => altB t j k) with
    | some k0 =>
      rw [hf] at h
      have hjk : j = j' ∧ k0 = k := by
        constructor
        · simpa using congrArg (Option.map Prod.fst) h
        · simpa using congrArg (Option.map Prod.snd) h
      obtain ⟨hj, hk⟩ := hjk
      subst hj; subst hk
      exact ⟨List.mem_of_find?_eq_some hf, List.find?_some hf, hf⟩
    | none =>
      rw [hf] at h
      exact ih (j + 1) j' k h

lemma findMatch_spec {altB : List Char → Nat → List Char → Bool}
    {keys : List (List Char)} {t : List Char} {pos j : Nat} {k : List Char}
    (h : findMatch altB keys t pos = some (j, k)) :
    pos ≤ j ∧ j ≤ t.length ∧ k ∈ keys ∧ altB t j k = true ∧
      keys.find? (fun k0 => altB t j k0) = some k := by
  unfold findMatch at h
  have h1 := findMatchAux_ge altB keys t _ _ _ _ h
  have h2 := findMatchAux_spec altB keys t _ _ _ _ h
  refine ⟨h1.1, ?_, h2⟩
  have hposle : pos ≤ t.length := by
    by_contra hlt
    have : t.length + 1 - pos = 0 := by omega
    rw [this] at h
    simp [findMatchAux] at h
  omega

lemma keyMatchTS_fits {t : List Char} {i : Nat} {k : List Char}
    (h : keyMatchTS t i k = true) (hi : i ≤ t.length) :
    i + k.length ≤ t.length := by
  simp only [keyMatchTS, Bool.and_eq_true] at h
  have := matchesKey_length k (t.drop i) h.1.2
  rw [List.length_drop] at this
  omega

lemma mem_insertKey {x a : List Char} :
    ∀ {l : List (List Char)}, a ∈ insertKey x l ↔ a = x ∨ a ∈ l := by
  intro l
  induction l with
  | nil => simp [insertKey]
  | cons y ys ih =>
    simp only [insertKey]
    split
    · simp only [List.mem_cons, ih]
      tauto
    · simp [List.mem_cons]

lemma mem_sortKeysDesc {a : List Char} :
    ∀ {l : List (List Char)}, a ∈ sortKeysDesc l ↔ a ∈ l := by
  intro l
  induction l with
  | nil => simp [sortKeysDesc]
  | cons x xs ih => simp [sortKeysDesc, mem_insertKey, ih]

lemma pairwise_insertKey {x : List Char} :
    ∀ {l : List (List Char)},
      l.Pairwise (fun a b => b.length ≤ a.length) →
      (insertKey x l).Pairwise (fun a b => b.length ≤ a.length) := by
  intro l
  induction l with
  | nil => intro _; simp [insertKey]
  | cons y ys ih =>
    intro hp
    rw [List.pairwise_cons] at hp
    simp only [insertKey]
    split
    case isTrue hlen =>
      rw [List.pairwise_cons]
      constructor
      · intro b hb
        rcases mem_insertKey.mp hb with hb | hb
        · subst hb; omega
        · exact hp.1 b hb
      · exact ih hp.2
    case isFalse hlen =>
      rw [List.pairwise_cons]
      constructor
      · intro b hb
        rcases List.mem_cons.mp hb with hb | hb
        · subst hb; omega
        · have := hp.1 b hb; omega
      · rw [List.pairwise_cons]; exact hp

lemma pairwise_sortKeysDesc (l : List (List Char)) :
    (sortKeysDesc l).Pairwise (fun a b => b.length ≤ a.length) := by
  induction l with
  | nil => simp [sortKeysDesc]
  | cons x xs ih => exact pairwise_insertKey ih

lemma find_first_pairwise {α : Type} {R : α → α → Prop} {p : α → Bool} :
    ∀ {l : List α} {k : α}, l.Pairwise R → l.find? p = some k →
      ∀ k' ∈ l, p k' = true → k = k' ∨ R k k' := by
  intro l
  induction l with
  | nil => simp [List.find?]
  | cons a rest ih =>
    intro k hp hf k' hk' hpk'
    rw [List.pairwise_cons] at hp
    rw [List.find?_cons] at hf
    cases hpa : p a with
    | true =>
      rw [hpa] at hf
      have hk : a = k := by simpa using hf
      subst hk
      rcases List.mem_cons.mp hk' with h | h
      · exact Or.inl h.symm
      · exact Or.inr (hp.1 k' h)
    | false =>
      rw [hpa] at hf
      rcases List.mem_cons.mp hk' with h | h
      · subst h; rw [hpa] at hpk'; exact absurd hpk' (by simp)
      · exact ih hp.2 hf k' h hpk'

lemma mapGet_cons {α : Type} (p : List Char × α) (rest : List (List Char × α))
    (k' : List Char) :
    mapGet (p :: rest) k' = if p.1 == k' then some p.2 else mapGet rest k' := by
  simp only [mapGet, List.find?_cons]
  cases p.1 == k' <;> simp

lemma mapGet_mapSet {α : Type} (m : List (List Char × α)) (k : List Char) (v : α)
    (k' : List Char) :
    mapGet (mapSet m k v) k' = if k' = k then some v else mapGet m k' := by
  induction m with
  | nil =>
    show mapGet [(k, v)] k' = _
    rw [mapGet_cons]
    by_cases h : k' = k
    · simp [h]
    · have hb : (k == k') = false := by
        simp only [beq_eq_false_iff_ne, ne_eq]
        exact fun h' => h h'.symm
      simp [hb, h, mapGet]
  | cons p rest ih =>
    simp only [mapSet]
    split
    case isTrue hp =>
      have hp' : p.1 = k := by simpa using hp
      rw [mapGet_cons, mapGet_cons]
      by_cases h : k' = k
      · simp [h]
      · have hb : (k == k') = false := by
          simp only [beq_eq_false_iff_ne, ne_eq]
          exact fun h' => h h'.symm
        have hb2 : (p.1 == k') = false := by
          rw [hp']
          exact hb
        simp [hb, hb2, h]
    case isFalse hp =>
      have hp' : ¬p.1 = k := by simpa using hp
      rw [mapGet_cons, mapGet_cons, ih]
      by_cases h : k' = k
      · subst h
        have hb2 : (p.1 == k') = false := by
          simp only [beq_eq_false_iff_ne, ne_eq]
          exact hp'
        simp [hb2]
      · simp [h]

lemma mapGet_bump_self (m : List (List Char × Nat)) (k : List Char) :
    mapGet (bump m k) k = some ((mapGet m k).getD 0 + 1) := by
  unfold bump
  cases h : mapGet m k <;> simp [h, mapGet_mapSet]

lemma mapGet_bump_other (m : List (List Char × Nat)) (k k' : List Char)
    (hne : k' ≠ k) : mapGet (bump m k) k' = mapGet m k' := by
  unfold bump
  cases h : mapGet m k <;> simp [mapGet_mapSet, hne]

/-! ## Lookup-map and tally lemmas -/

lemma buildLookup_values_aux (rules : List (List Char × List Char)) :
    ∀ (sorted : List (List Char)) (m0 : List (List Char × List Char)),
      (∀ s v, mapGet m0 s = some v → v = [] ∨ v ∈ rules.map (·.2)) →
      ∀ s v,
        mapGet (sorted.foldl (fun m k => mapSet m (lowerL k) (recGet rules k)) m0) s = some v →
        v = [] ∨ v ∈ rules.map (·.2) := by
  intro sorted
  induction sorted with
  | nil => intro m0 h s v hv; exact h s v hv
  | cons k ks ih =>
    intro m0 h s v hv
    rw [List.foldl_cons] at hv
    refine ih _ ?_ s v hv
    intro s' v' hv'
    rw [mapGet_mapSet] at hv'
    split at hv'
    · have hv'' : recGet rules k = v' := by simpa using hv'
      subst hv''
      unfold recGet
      cases hf : rules.find? (fun p => p.1 == k) with
      | none => simp
      | some p =>
        right
        have hm : p.2 ∈ rules.map (·.2) :=
          List.mem_map_of_mem _ (List.mem_of_find?_eq_some hf)
        simpa using hm
    · exact h s' v' hv'

lemma buildLookup_values {rules : List (List Char × List Char)}
    {sorted : List (List Char)} {s v : List Char}
    (h : mapGet (buildLookup rules sorted) s = some v) :
    v = [] ∨ v ∈ rules.map (·.2) := by
  refine buildLookup_values_aux rules sorted [] ?_ s v h
  intro s' v' hv'
  simp [mapGet] at hv'

lemma tallySpans_get (t : List Char) :
    ∀ (spans : List MSpan) (cts : List (List Char × Nat)) (k : List Char),
      (mapGet (tallySpans t spans cts) k).getD 0 =
        (mapGet cts k).getD 0 + countSpans t spans k ∧
      ((mapGet (tallySpans t spans cts) k).isSome ↔
        (mapGet cts k).isSome ∨ countSpans t spans k ≠ 0) := by
  intro spans
  induction spans with
  | nil => intro cts k; simp [tallySpans, countSpans]
  | cons s rest ih =>
    intro cts k
    have hcount : countSpans t (s :: rest) k =
        countSpans t rest k +
          (if s.replaced && (lowerL (matchedSlice t s) == k) then 1 else 0) := by
      simp [countSpans, List.countP_cons]
    cases hrep : s.replaced with
    | false =>
      have hts : tallySpans t (s :: rest) cts = tallySpans t rest cts := by
        simp [tallySpans, hrep]
      rw [hts, hcount]
      have hih := ih cts k
      simp only [hrep, Bool.false_and, if_false]
      refine ⟨by rw [hih.1]; simp, ?_⟩
      rw [hih.2]
      simp
    | true =>
      have hts : tallySpans t (s :: rest) cts =
          tallySpans t rest (bump cts (lowerL (matchedSlice t s))) := by
        simp [tallySpans, hrep]
      rw [hts, hcount]
      by_cases hk : lowerL (matchedSlice t s) = k
      · rw [hk]
        have hih := ih (bump cts k) k
        have hbs := mapGet_bump_self cts k
        have hbeq : (k == k) = true := by simp
        simp only [hrep, hk, hbeq, Bool.true_and, if_true]
        refine ⟨?_, ?_⟩
        · rw [hih.1, hbs]
          simp
          omega
        · rw [hih.2, hbs]
          simp
      · have hih := ih (bump cts (lowerL (matchedSlice t s))) k
        have hbo := mapGet_bump_other cts (lowerL (matchedSlice t s)) k
          (by intro he; exact hk he.symm)
        have hbeq : (lowerL (matchedSlice t s) == k) = false := by
          simp only [beq_eq_false_iff_ne, ne_eq]
          exact hk
        simp only [hrep, hbeq, Bool.and_false, if_false]
        refine ⟨?_, ?_⟩
        · rw [hih.1, hbo]
          simp
        · rw [hih.2, hbo]
          simp

/-! ## Decomposition of a successful scan into match spans -/

lemma tsScanAux_decomp (keys : List (List Char)) (lk : List (List Char × List Char))
    (t : List Char) :
    ∀ (fuel rp cp : Nat) (acc : List Char) (cts : List (List Char × Nat))
      (out : List Char) (ctsOut : List (List Char × Nat)),
      tsScanAux keys lk t fuel rp cp acc cts = some (out, ctsOut) →
      ∃ spans, out = acc ++ renderSpans t spans cp ∧
        ctsOut = tallySpans t spans cts ∧ SpansWF keys lk t rp spans := by
  intro fuel
  induction fuel with
  | zero => intro rp cp acc cts out ctsOut h; simp [tsScanAux] at h
  | succ f ih =>
    intro rp cp acc cts out ctsOut h
    rw [tsScanAux] at h
    cases hfm : findMatch keyMatchTS keys t rp with
    | none =>
      rw [hfm] at h
      simp only [Option.some.injEq, Prod.mk.injEq] at h
      refine ⟨[], ?_, ?_, trivial⟩
      · rw [← h.1]; simp [renderSpans]
      · rw [← h.2]; simp [tallySpans]
    | some jk =>
      obtain ⟨j, k⟩ := jk
      rw [hfm] at h
      simp only at h
      cases hlk : mapGet lk (lowerL (slice t j (j + k.length))) with
      | none =>
        rw [hlk] at h
        simp only at h
        obtain ⟨spans', hout, hcts, hwf⟩ := ih _ _ _ _ _ _ h
        refine ⟨⟨j, k, slice t j (j + k.length), false, 0⟩ :: spans', ?_, ?_, ?_⟩
        · rw [hout]
          simp [renderSpans, matchedSlice]
        · rw [hcts]
          simp [tallySpans]
        · refine ⟨hfm, Or.inr ⟨rfl, rfl, Or.inl ?_⟩, ?_, hwf⟩
          · simpa [matchedSlice] using hlk
          · simp [extraOf]
      | some rep =>
        rw [hlk] at h
        simp only at h
        cases hre : rep.isEmpty with
        | true =>
          rw [hre] at h
          simp only [if_true] at h
          obtain ⟨spans', hout, hcts, hwf⟩ := ih _ _ _ _ _ _ h
          have hrepnil : rep = [] := List.isEmpty_iff.mp hre
          refine ⟨⟨j, k, slice t j (j + k.length), false, 0⟩ :: spans', ?_, ?_, ?_⟩
          · rw [hout]
            simp [renderSpans, matchedSlice]
          · rw [hcts]
            simp [tallySpans]
          · refine ⟨hfm, Or.inr ⟨rfl, rfl, Or.inr ?_⟩, ?_, hwf⟩
            · rw [← hrepnil]
              simpa [matchedSlice] using hlk
            · simp [extraOf]
        | false =>
          rw [hre] at h
          simp only [Bool.false_eq_true, if_false] at h
          cases hc : (endsInWS rep && (t[j + k.length]? == some ' ')) with
          | true =>
            rw [hc] at h
            simp only [eq_self_iff_true, if_true] at h
            obtain ⟨spans', hout, hcts, hwf⟩ := ih _ _ _ _ _ _ h
            refine ⟨⟨j, k, rep, true, 1⟩ :: spans', ?_, ?_, ?_⟩
            · rw [hout]
              simp [renderSpans, List.append_assoc]
            · rw [hcts]
              simp [tallySpans, matchedSlice]
            · have hner : rep ≠ [] := by
                intro hnil
                rw [hnil] at hre
                simp at hre
              refine ⟨hfm, Or.inl ⟨rfl, by simpa [matchedSlice] using hlk,
                by simpa using hner⟩, ?_, hwf⟩
              simp only [extraOf, Bool.true_and]
              rw [hc]
              simp
          | false =>
            rw [hc] at h
            simp only [Bool.false_eq_true, if_false] at h
            obtain ⟨spans', hout, hcts, hwf⟩ := ih _ _ _ _ _ _ h
            refine ⟨⟨j, k, rep, true, 0⟩ :: spans', ?_, ?_, ?_⟩
            · rw [hout]
              simp [renderSpans, List.append_assoc]
            · rw [hcts]
              simp [tallySpans, matchedSlice]
            · have hner : rep ≠ [] := by
                intro hnil
                rw [hnil] at hre
                simp at hre
              refine ⟨hfm, Or.inl ⟨rfl, by simpa [matchedSlice] using hlk,
                by simpa using hner⟩, ?_, hwf⟩
              simp only [extraOf, Bool.true_and]
              rw [hc]
              simp

lemma applyRepl_decomp {t : List Char} {rules : List (List Char × List Char)}
    {out : List Char} {cts : List (List Char × Nat)}
    (h : applyRepl t rules = some (out, cts)) :
    ∃ spans,
      out = renderSpans t spans 0 ∧ cts = tallySpans t spans [] ∧
      SpansWF (sortKeysDesc (rules.map (·.1)))
        (buildLookup rules (sortKeysDesc (rules.map (·.1)))) t 0 spans := by
  unfold applyRepl at h
  split at h
  · simp only [Option.some.injEq, Prod.mk.injEq] at h
    exact ⟨[], by simp [renderSpans, ← h.1], by simp [tallySpans, ← h.2], trivial⟩
  · obtain ⟨spans, h1, h2, h3⟩ := tsScanAux_decomp _ _ _ _ _ _ _ _ _ _ h
    exact ⟨spans, by simpa using h1, h2, h3⟩

/-! ## Termination of the exec loop for non-empty phrases -/

lemma tsScanAux_ne_none (keys : List (List Char)) (lk : List (List Char × List Char))
    (t : List Char) (hk : ∀ k ∈ keys, k ≠ ([] : List Char)) :
    ∀ (fuel rp : Nat), t.length + 1 - rp < fuel →
      ∀ (cp : Nat) (acc : List Char) (cts : List (List Char × Nat)),
        tsScanAux keys lk t fuel rp cp acc cts ≠ none := by
  intro fuel
  induction fuel with
  | zero => intro rp h; omega
  | succ f ih =>
    intro rp hfuel cp acc cts h
    rw [tsScanAux] at h
    cases hfm : findMatch keyMatchTS keys t rp with
    | none => rw [hfm] at h; simp at h
    | some jk =>
      obtain ⟨j, k⟩ := jk
      rw [hfm] at h
      simp only at h
      obtain ⟨hj, hjle, hkmem, halt, -⟩ := findMatch_spec hfm
      have hkne : k ≠ [] := hk k hkmem
      have hklen : 0 < k.length := List.length_pos.mpr hkne
      have hfit : j + k.length ≤ t.length := keyMatchTS_fits halt hjle
      cases hlk : mapGet lk (lowerL (slice t j (j + k.length))) with
      | none =>
        rw [hlk] at h
        simp only at h
        exact ih (j + k.length) (by omega) _ _ _ h
      | some rep =>
        rw [hlk] at h
        simp only at h
        cases hre : rep.isEmpty with
        | true =>
          rw [hre] at h
          simp only [if_true] at h
          exact ih (j + k.length) (by omega) _ _ _ h
        | false =>
          rw [hre] at h
          simp only [Bool.false_eq_true, if_false] at h
          cases hc : (endsInWS rep && (t[j + k.length]? == some ' ')) with
          | true =>
            rw [hc] at h
            simp only [eq_self_iff_true, if_true] at h
            exact ih (j + k.length) (by omega) _ _ _ h
          | false =>
            rw [hc] at h
            simp only [Bool.false_eq_true, if_false] at h
            exact ih (j + k.length) (by omega) _ _ _ h

lemma tsScanAux_isSome (keys : List (List Char)) (lk : List (List Char × List Char))
    (t : List Char) (hk : ∀ k ∈ keys, k ≠ ([] : List Char))
    (fuel rp : Nat) (hfuel : t.length + 1 - rp < fuel)
    (cp : Nat) (acc : List Char) (cts : List (List Char × Nat)) :
    (tsScanAux keys lk t fuel rp cp acc cts).isSome := by
  rw [Option.isSome_iff_ne_none]
  exact tsScanAux_ne_none keys lk t hk fuel rp hfuel cp acc cts

lemma applyRepl_isSome {t : List Char} {rules : List (List Char × List Char)}
    (hk : ∀ p ∈ rules, p.1 ≠ ([] : List Char)) :
    (applyRepl t rules).isSome := by
  unfold applyRepl
  split
  · simp
  · refine tsScanAux_isSome _ _ _ ?_ _ _ (by omega) _ _ _
    intro k hkm
    rw [mem_sortKeysDesc] at hkm
    obtain ⟨p, hp, hpk⟩ := List.mem_map.mp hkm
    exact hpk ▸ hk p hp

/-! ## Agreement of the two build artifacts on restricted inputs -/

lemma textOK_char {t : List Char} {c : Char} (ht : textOK t = true) (hc : c ∈ t) :
    isDigitChar c = false ∧ (c == '*') = false ∧ (c == '_') = false := by
  rw [textOK, List.all_eq_true] at ht
  have := ht c hc
  simp only [Bool.and_eq_true, Bool.not_eq_true', bne_iff_ne, ne_eq] at this
  refine ⟨this.1.1, ?_, ?_⟩
  · simp [this.1.2]
  · simp [this.2]

lemma wordChar_agree {t : List Char} {c : Char} (ht : textOK t = true) (hc : c ∈ t) :
    isWordChar c = isAsciiLetter c ∧ tsExcluded c = isAsciiLetter c := by
  obtain ⟨h1, h2, h3⟩ := textOK_char ht hc
  constructor
  · simp [isWordChar, h1, h3]
  · simp [tsExcluded, h2, h3]

lemma phraseOK_spec {k : List Char} (hp : phraseOK k = true) :
    ∃ a b, k.head? = some a ∧ k.getLast? = some b ∧
      isAsciiLetter a = true ∧ isAsciiLetter b = true := by
  unfold phraseOK at hp
  cases hh : k.head? with
  | none => rw [hh] at hp; simp at hp
  | some a =>
    cases hl : k.getLast? with
    | none => rw [hh, hl] at hp; simp at hp
    | some b =>
      rw [hh, hl] at hp
      simp only [Bool.and_eq_true] at hp
      exact ⟨a, b, rfl, rfl, hp.1, hp.2⟩

lemma keyMatch_agree {t k : List Char} (ht : textOK t = true)
    (hp : phraseOK k = true) (i : Nat) :
    keyMatchJS t i k = keyMatchTS t i k := by
  cases hm : matchesKey k (t.drop i) with
  | false => simp [keyMatchJS, keyMatchTS, hm]
  | true =>
    obtain ⟨a, b, hh, hl, hla, hlb⟩ := phraseOK_spec hp
    have hkne : k ≠ [] := by intro h; rw [h] at hh; simp at hh
    have hklen : 0 < k.length := List.length_pos.mpr hkne
    -- first matched character is a letter
    obtain ⟨c0, hc0, hfold0⟩ :=
      matchesKey_get k (t.drop i) hm 0 a (by rw [← List.head?_eq_getElem?]; exact hh)
    rw [List.getElem?_drop, Nat.add_zero] at hc0
    have hc0l : isAsciiLetter c0 = true := lowerChar_letter hla hfold0
    have hw0 : wordAt t i = true := by
      rw [wordAt, hc0]
      simp [isWordChar, hc0l]
    -- last matched character is a letter
    obtain ⟨c1, hc1, hfold1⟩ :=
      matchesKey_get k (t.drop i) hm (k.length - 1) b
        (by rw [← List.getLast?_eq_getElem?]; exact hl)
    rw [List.getElem?_drop] at hc1
    have hc1' : t[i + k.length - 1]? = some c1 := by
      have : i + (k.length - 1) = i + k.length - 1 := by omega
      rw [← this]; exact hc1
    have hc1l : isAsciiLetter c1 = true := lowerChar_letter hlb hfold1
    have hw1 : wordAt t (i + k.length - 1) = true := by
      rw [wordAt, hc1']
      simp [isWordChar, hc1l]
    -- start boundary agreement
    have hstart : jsBoundary t i = (decide (i = 0) || notExcludedAt t (i - 1)) := by
      by_cases hi : i = 0
      · subst hi
        simp [jsBoundary, hw0]
      · have hine : (decide (i = 0)) = false := by simp [hi]
        rw [jsBoundary, if_neg hi, hw0, hine, Bool.false_or]
        cases hd : t[i - 1]? with
        | none =>
          have hW : wordAt t (i - 1) = false := by rw [wordAt, hd]
          have hE : notExcludedAt t (i - 1) = true := by rw [notExcludedAt, hd]
          rw [hW, hE]
          rfl
        | some d =>
          obtain ⟨hwd, hed⟩ := wordChar_agree ht (List.getElem?_mem hd)
          have hW : wordAt t (i - 1) = isAsciiLetter d := by
            rw [wordAt, hd]; exact hwd
          have hE : notExcludedAt t (i - 1) = !isAsciiLetter d := by
            rw [notExcludedAt, hd]; exact congrArg (fun b => !b) hed
          rw [hW, hE]
          cases isAsciiLetter d <;> rfl
    -- end boundary agreement
    have hend : jsBoundary t (i + k.length) = notExcludedAt t (i + k.length) := by
      have hne0 : ¬(i + k.length = 0) := by omega
      rw [jsBoundary, if_neg hne0, hw1]
      cases hd : t[i + k.length]? with
      | none =>
        have hW : wordAt t (i + k.length) = false := by rw [wordAt, hd]
        have hE : notExcludedAt t (i + k.length) = true := by rw [notExcludedAt, hd]
        rw [hW, hE]
        rfl
      | some d =>
        obtain ⟨hwd, hed⟩ := wordChar_agree ht (List.getElem?_mem hd)
        have hW : wordAt t (i + k.length) = isAsciiLetter d := by
          rw [wordAt, hd]; exact hwd
        have hE : notExcludedAt t (i + k.length) = !isAsciiLetter d := by
          rw [notExcludedAt, hd]; exact congrArg (fun b => !b) hed
        rw [hW, hE]
        cases isAsciiLetter d <;> rfl
    rw [keyMatchJS, keyMatchTS, hstart, hend]

lemma find?_congr_mem {α : Type} {p q : α → Bool} :
    ∀ {l : List α}, (∀ a ∈ l, p a = q a) → l.find? p = l.find? q := by
  intro l
  induction l with
  | nil => intro _; rfl
  | cons a rest ih =>
    intro h
    rw [List.find?_cons, List.find?_cons, h a (by simp)]
    cases q a with
    | true => rfl
    | false => exact ih (fun b hb => h b (by simp [hb]))

lemma findMatch_agree {keys : List (List Char)} {t : List Char}
    (hb : ∀ i, ∀ k ∈ keys, keyMatchJS t i k = keyMatchTS t i k) :
    ∀ (fuel j : Nat),
      findMatchAux keyMatchJS keys t fuel j = findMatchAux keyMatchTS keys t fuel j := by
  intro fuel
  induction fuel with
  | zero => intro j; rfl
  | succ f ih =>
    intro j
    rw [findMatchAux, findMatchAux, find?_congr_mem (fun k hk => hb j k hk)]
    cases keys.find? (fun k => keyMatchTS t j k) with
    | some k => rfl
    | none => exact ih (j + 1)

lemma scan_agree (keys : List (List Char)) (lk : List (List Char × List Char))
    (t : List Char)
    (hb : ∀ i, ∀ k ∈ keys, keyMatchJS t i k = keyMatchTS t i k)
    (hne : ∀ k ∈ keys, k ≠ ([] : List Char))
    (hrep : ∀ s v, mapGet lk s = some v → endsInWS v = false) :
    ∀ (fuel pos : Nat) (acc : List Char) (cts : List (List Char × Nat)),
      jsScanAux keys lk t fuel pos pos acc cts =
        tsScanAux keys lk t fuel pos pos acc cts := by
  intro fuel
  induction fuel with
  | zero => intro pos acc cts; rfl
  | succ f ih =>
    intro pos acc cts
    rw [jsScanAux, tsScanAux]
    have hfm : findMatch keyMatchJS keys t pos = findMatch keyMatchTS keys t pos :=
      findMatch_agree hb _ _
    rw [hfm]
    cases hf : findMatch keyMatchTS keys t pos with
    | none => rfl
    | some jk =>
      obtain ⟨j, k⟩ := jk
      obtain ⟨-, -, hkmem, -, -⟩ := findMatch_spec hf
      have hklen : ¬(k.length = 0) := by
        have := List.length_pos.mpr (hne k hkmem)
        omega
      simp only [hklen, if_false]
      cases hlk : mapGet lk (lowerL (slice t j (j + k.length))) with
      | none =>
        simp only [hlk]
        exact ih _ _ _
      | some rep =>
        have hrws : endsInWS rep = false := hrep _ _ hlk
        simp only [hlk, hrws, Bool.false_and, Bool.false_eq_true, if_false]
        cases hre : rep.isEmpty with
        | true =>
          simp only [eq_self_iff_true, if_true]
          exact ih _ _ _
        | false =>
          simp only [Bool.false_eq_true, if_false]
          exact ih _ _ _

/-! ## Consequences of span well-formedness -/

lemma spansWF_spec (keys : List (List Char)) (lk : List (List Char × List Char))
    (t : List Char) :
    ∀ (spans : List MSpan) (rp : Nat), SpansWF keys lk t rp spans →
      SpansOrdered t rp spans ∧
      ∀ s ∈ spans,
        s.extra = extraOf s.replaced s.rep t (s.start + s.key.length) ∧
        (s.replaced = true →
          mapGet lk (lowerL (matchedSlice t s)) = some s.rep ∧ s.rep ≠ []) := by
  intro spans
  induction spans with
  | nil => intro rp _; exact ⟨trivial, by simp⟩
  | cons s rest ih =>
    intro rp hwf
    obtain ⟨hfm, hcase, hextra, hrest⟩ := hwf
    obtain ⟨hle, hjle, -, halt, -⟩ := findMatch_spec hfm
    have hfit : s.start + s.key.length ≤ t.length := keyMatchTS_fits halt hjle
    obtain ⟨hord, hall⟩ := ih _ hrest
    refine ⟨⟨hle, hfit, hord⟩, ?_⟩
    intro x hx
    rcases List.mem_cons.mp hx with hx | hx
    · subst hx
      refine ⟨hextra, ?_⟩
      intro hrep
      rcases hcase with ⟨-, hget, hne⟩ | ⟨hfalse, -, -⟩
      · exact ⟨hget, hne⟩
      · rw [hrep] at hfalse; cases hfalse
    · exact hall x hx

lemma lookup_no_ws {rules : List (List Char × List Char)}
    {sorted : List (List Char)}
    (h : ∀ v ∈ rules.map (·.2), endsInWS v = false) :
    ∀ s v, mapGet (buildLookup rules sorted) s = some v → endsInWS v = false := by
  intro s v hv
  rcases buildLookup_values hv with rfl | hm
  · rfl
  · exact h v hm

lemma spansWF_extra_zero {keys : List (List Char)} {lk : List (List Char × List Char)}
    {t : List Char}
    (hws : ∀ s v, mapGet lk s = some v → endsInWS v = false) :
    ∀ (spans : List MSpan) (rp : Nat), SpansWF keys lk t rp spans →
      ∀ s ∈ spans, s.extra = 0 := by
  intro spans rp hwf s hs
  obtain ⟨-, hall⟩ := spansWF_spec keys lk t spans rp hwf
  obtain ⟨hextra, hrep⟩ := hall s hs
  cases hr : s.replaced with
  | false => rw [hextra, extraOf, hr]; simp
  | true =>
    obtain ⟨hget, -⟩ := hrep hr
    have : endsInWS s.rep = false := hws _ _ hget
    rw [hextra, extraOf, hr, this]
    simp

/-! ## Marshalling between the String entry points and the core scanner -/

lemma applyReplacements_eq_some {text : String} {reps : List (String × String)}
    {out : String} {cts : List (String × Nat)}
    (h : applyReplacements text reps = some (out, cts)) :
    ∃ o c, applyRepl text.data (reps.map (fun p => (p.1.data, p.2.data))) = some (o, c) ∧
      out.data = o ∧ cts = c.map (fun q => (String.mk q.1, q.2)) := by
  unfold applyReplacements at h
  cases hr : applyRepl text.data (reps.map (fun p => (p.1.data, p.2.data))) with
  | none => rw [hr] at h; simp at h
  | some oc =>
    rw [hr] at h
    have h' : (String.mk oc.1, oc.2.map (fun q => (String.mk q.1, q.2))) = (out, cts) := by
      simpa using h
    obtain ⟨h1, h2⟩ := Prod.mk.inj h'
    exact ⟨oc.1, oc.2, rfl, by rw [← h1], h2.symm⟩

/-! ## Claims -/

/-- C1.  Longest-match precedence: with rules `must → MUST`,
`must not → MUST NOT`, the text `"you must not fail"` becomes
`"you MUST NOT fail"` (never `"you MUST not fail"`); and in general the
alternatives of the combined pattern are tried in descending phrase-length
order, so whenever a phrase of the rule set also matches at the position the
combined pattern matched, the chosen phrase is at least as long. -/
theorem c1_longest_match :
    applyReplacements "you must not fail" [("must", "MUST"), ("must not", "MUST NOT")] =
      some ("you MUST NOT fail", [("must not", 1)]) ∧
    ∀ (rules : List (List Char × List Char)) (t : List Char) (j : Nat)
      (k k' : List Char),
      (sortKeysDesc (rules.map (·.1))).find? (fun k0 => keyMatchTS t j k0) = some k →
      k' ∈ rules.map (·.1) → keyMatchTS t j k' = true → k'.length ≤ k.length := by
  constructor
  · rfl
  · intro rules t j k k' hfind hmem hmatch
    rcases find_first_pairwise (pairwise_sortKeysDesc (rules.map (·.1))) hfind k'
        (mem_sortKeysDesc.mpr hmem) hmatch with heq | hle
    · rw [heq]
    · exact hle

/-- Witness for C1: at position 4 of `"you must not fail"` both `"must"` and
`"must not"` match, and the engine's chosen alternative `"must not"` is the
longer one. -/
theorem c1_longest_match_witness :
    ("must".data).length ≤ ("must not".data).length :=
  c1_longest_match.2 [("must".data, "MUST".data), ("must not".data, "MUST NOT".data)]
    ("you must not fail".data) 4 ("must not".data) ("must".data)
    (by decide) (by decide) (by decide)

/-- C2.  Boundary predicate: a phrase is matched only at positions whose
preceding character (if any) is not a letter, `*` or `_`, and whose following
character (if any) is not a letter, `*` or `_`; in particular `may → MAY`
leaves `"maybe"` unchanged and `must → MUST` leaves `"**MUST**"` unchanged. -/
theorem c2_boundary_match :
    applyReplacements "maybe" [("may", "MAY")] = some ("maybe", []) ∧
    applyReplacements "**MUST**" [("must", "MUST")] = some ("**MUST**", []) ∧
    ∀ (keys : List (List Char)) (t : List Char) (pos j : Nat) (k : List Char),
      findMatch keyMatchTS keys t pos = some (j, k) →
      (j = 0 ∨ ∀ c, t[j - 1]? = some c → tsExcluded c = false) ∧
      (∀ c, t[j + k.length]? = some c → tsExcluded c = false) := by
  refine ⟨rfl, rfl, ?_⟩
  intro keys t pos j k hfind
  obtain ⟨-, -, -, halt, -⟩ := findMatch_spec hfind
  rw [keyMatchTS] at halt
  simp only [Bool.and_eq_true, Bool.or_eq_true, decide_eq_true_eq] at halt
  obtain ⟨⟨hbefore, -⟩, hafter⟩ := halt
  constructor
  · rcases hbefore with h0 | hne
    · exact Or.inl h0
    · refine Or.inr ?_
      intro c hc
      rw [notExcludedAt, hc] at hne
      simpa using hne
  · intro c hc
    rw [notExcludedAt, hc] at hafter
    simpa using hafter

/-- Witness for C2: the match of `"may"` at position 2 of `"x may y"` has a
non-excluded following character, the space. -/
theorem c2_boundary_match_witness : tsExcluded ' ' = false :=
  (c2_boundary_match.2.2 ["may".data] ("x may y".data) 0 2 ("may".data)
      (by decide)).2 ' ' (by decide)

/-- C3.  Fixed point / no cascading re-match: with the rule
`must not → **MUST NOT**`, the engine sends `"must not"` to
`"**MUST NOT**"`, and applying the engine again to that output leaves it
unchanged with no counted matches (the emitted replacement is never
re-matched). -/
theorem c3_fixed_point :
    applyReplacements "must not" [("must not", "**MUST NOT**")] =
      some ("**MUST NOT**", [("must not", 1)]) ∧
    applyReplacements "**MUST NOT**" [("must not", "**MUST NOT**")] =
      some ("**MUST NOT**", []) :=
  ⟨rfl, rfl⟩

/-- C10.  Termination: when every configured phrase is non-empty, the
`exec` loop of `applyReplacements` terminates (the model returns `some`
rather than exhausting its fuel), because every match has positive length
and the scan position strictly advances. -/
theorem c10_termination (text : String) (replacements : List (String × String))
    (h : ∀ p ∈ replacements, p.1 ≠ "") :
    (applyReplacements text replacements).isSome := by
  unfold applyReplacements
  have hk : ∀ p ∈ replacements.map (fun p => (p.1.data, p.2.data)), p.1 ≠ ([] : List Char) := by
    intro p hp
    obtain ⟨q, hq, rfl⟩ := List.mem_map.mp hp
    intro hnil
    exact h q hq (String.ext hnil)
  obtain ⟨r, hr⟩ := Option.isSome_iff_exists.mp (applyRepl_isSome hk)
  rw [hr]
  rfl

/-- Witness for C10: a concrete run with a non-empty phrase terminates. -/
theorem c10_termination_witness :
    (applyReplacements "you must not fail" [("must", "MUST")]).isSome :=
  c10_termination "you must not fail" [("must", "MUST")] (by decide)

/-- C4 (counterexample).  The frame property as stated fails when a
replacement ends in whitespace: with `must → "MUST\n"` on `"must x"`, the
space at position 4 lies outside the matched span `[0, 4)` but is consumed
by the whitespace-collapsing step, so the text outside the span is not
copied byte-for-byte (the output would otherwise be `"MUST\n x"`). -/
theorem c4_frame_counterexample :
    applyReplacements "must x" [("must", "MUST\n")] =
      some ("MUST\nx", [("must", 1)]) ∧
    ("MUST\nx" : String) ≠ "MUST\n x" :=
  ⟨rfl, by decide⟩

/-- C4 (amended).  Frame property: whenever the engine returns a result and
no replacement value ends in whitespace (so the whitespace-collapsing step
never consumes anything), the output decomposes into an ordered list of
match spans such that everything outside the spans is a literal slice of the
input, copied byte-for-byte, and no character beyond any matched span is
consumed. -/
theorem c4_frame (text : String) (replacements : List (String × String))
    (out : String) (cts : List (String × Nat))
    (h : applyReplacements text replacements = some (out, cts))
    (hws : ∀ p ∈ replacements, endsInWS p.2.data = false) :
    ∃ spans, out.data = renderSpans text.data spans 0 ∧
      SpansOrdered text.data 0 spans ∧ ∀ s ∈ spans, s.extra = 0 := by
  obtain ⟨o, c, hcore, hout, -⟩ := applyReplacements_eq_some h
  obtain ⟨spans, ho, -, hwf⟩ := applyRepl_decomp hcore
  refine ⟨spans, by rw [hout, ho], (spansWF_spec _ _ _ _ _ hwf).1, ?_⟩
  refine spansWF_extra_zero ?_ spans 0 hwf
  refine lookup_no_ws ?_
  intro v hv
  obtain ⟨p, hp, hpv⟩ := List.mem_map.mp hv
  obtain ⟨q, hq, rfl⟩ := List.mem_map.mp hp
  rw [← hpv]
  exact hws q hq

/-- Witness for C4: a run of `must → MUST` over `"a must b"` decomposes with
all regions outside the span copied literally. -/
theorem c4_frame_witness :
    ∃ spans, ("a MUST b" : String).data = renderSpans ("a must b" : String).data spans 0 ∧
      SpansOrdered ("a must b" : String).data 0 spans ∧ ∀ s ∈ spans, s.extra = 0 :=
  c4_frame "a must b" [("must", "MUST")] "a MUST b" [("must", 1)] rfl (by decide)

/-- C5.  Whitespace-collapsing refinement: a run decomposes into spans in
which exactly one extra character is consumed after a matched span precisely
when a replacement was substituted, it ends in whitespace, and the original
character right after the span is a space; in every other case nothing
beyond the span is consumed.  Concretely with `must → "MUST\n"`: `"must x"`
loses the single following space, `"must  x"` loses only one of two spaces,
`"must\tx"` (tab) loses nothing; with `must → "MUST"` nothing is consumed. -/
theorem c5_whitespace_collapse :
    applyReplacements "must x" [("must", "MUST\n")] =
      some ("MUST\nx", [("must", 1)]) ∧
    applyReplacements "must  x" [("must", "MUST\n")] =
      some ("MUST\n x", [("must", 1)]) ∧
    applyReplacements "must\tx" [("must", "MUST\n")] =
      some ("MUST\n\tx", [("must", 1)]) ∧
    applyReplacements "must x" [("must", "MUST")] =
      some ("MUST x", [("must", 1)]) ∧
    ∀ (text : String) (replacements : List (String × String))
      (out : String) (cts : List (String × Nat)),
      applyReplacements text replacements = some (out, cts) →
      ∃ spans, out.data = renderSpans text.data spans 0 ∧
        SpansOrdered text.data 0 spans ∧
        ∀ s ∈ spans,
          s.extra = extraOf s.replaced s.rep text.data (s.start + s.key.length) := by
  refine ⟨rfl, rfl, rfl, rfl, ?_⟩
  intro text replacements out cts h
  obtain ⟨o, c, hcore, hout, -⟩ := applyReplacements_eq_some h
  obtain ⟨spans, ho, -, hwf⟩ := applyRepl_decomp hcore
  obtain ⟨hord, hall⟩ := spansWF_spec _ _ _ _ _ hwf
  exact ⟨spans, by rw [hout, ho], hord, fun s hs => (hall s hs).1⟩

/-- Witness for C5: the decomposition exists for a run in which the
collapsing step fires. -/
theorem c5_whitespace_collapse_witness :
    ∃ spans, ("MUST\nx" : String).data = renderSpans ("must x" : String).data spans 0 ∧
      SpansOrdered ("must x" : String).data 0 spans ∧
      ∀ s ∈ spans,
        s.extra = extraOf s.replaced s.rep ("must x" : String).data (s.start + s.key.length) :=
  c5_whitespace_collapse.2.2.2.2 "must x" [("must", "MUST\n")] "MUST\nx" [("must", 1)] rfl

/-- C6.  Case-insensitive matching and count accuracy: `Must`, `MUST` and
`must` are all rewritten identically by `must → MUST`, one call on
`"must Must MUST"` tallies `must ↦ 3`, and in general the counts map of a
successful run is keyed by lowercased matched phrases, each entry equals the
number of substitutions performed for that phrase in the run's span
decomposition, and no entry is zero. -/
theorem c6_case_insensitive_counts :
    applyReplacements "Must" [("must", "MUST")] = some ("MUST", [("must", 1)]) ∧
    applyReplacements "MUST" [("must", "MUST")] = some ("MUST", [("must", 1)]) ∧
    applyReplacements "must" [("must", "MUST")] = some ("MUST", [("must", 1)]) ∧
    applyReplacements "must Must MUST" [("must", "MUST")] =
      some ("MUST MUST MUST", [("must", 3)]) ∧
    ∀ (t : List Char) (rules : List (List Char × List Char))
      (out : List Char) (cts : List (List Char × Nat)),
      applyRepl t rules = some (out, cts) →
      ∃ spans, out = renderSpans t spans 0 ∧
        ∀ k n, mapGet cts k = some n → n = countSpans t spans k ∧ 1 ≤ n := by
  refine ⟨rfl, rfl, rfl, rfl, ?_⟩
  intro t rules out cts h
  obtain ⟨spans, ho, hc, -⟩ := applyRepl_decomp h
  refine ⟨spans, ho, ?_⟩
  intro k n hk
  obtain ⟨hval, hsome⟩ := tallySpans_get t spans [] k
  rw [← hc] at hval hsome
  have hn : n = countSpans t spans k := by
    have : (some n).getD 0 = countSpans t spans k := by
      rw [← hk, hval]
      simp [mapGet]
    simpa using this
  refine ⟨hn, ?_⟩
  have hs : (mapGet cts k).isSome := by rw [hk]; rfl
  have := hsome.mp hs
  rcases this with h0 | hne
  · simp [mapGet] at h0
  · omega

/-- Witness for C6: the general count characterisation applied to the
three-occurrence run. -/
theorem c6_case_insensitive_counts_witness :
    ∃ spans, ("MUST MUST MUST" : String).data =
        renderSpans ("must Must MUST" : String).data spans 0 ∧
      ∀ k n, mapGet [("must".data, 3)] k = some n →
        n = countSpans ("must Must MUST" : String).data spans k ∧ 1 ≤ n :=
  c6_case_insensitive_counts.2.2.2.2 ("must Must MUST" : String).data
    [("must".data, "MUST".data)] ("MUST MUST MUST" : String).data
    [("must".data, 3)] (by decide)

/-- C9 (counterexample).  The two build artifacts are observably different:
on `"**must**"` with `must → MUST`, the compiled JavaScript variant (plain
`\b` word boundaries) substitutes inside the emphasis markup and counts one
match, while the TypeScript variant (lookarounds excluding `*`) leaves the
text unchanged. -/
theorem c9_variant_counterexample :
    applyReplacementsJS "**must**" [("must", "MUST")] =
      some ("**MUST**", [("must", 1)]) ∧
    applyReplacements "**must**" [("must", "MUST")] = some ("**must**", []) ∧
    applyReplacementsJS "**must**" [("must", "MUST")] ≠
      applyReplacements "**must**" [("must", "MUST")] := by
  refine ⟨rfl, rfl, ?_⟩
  intro h
  rw [show applyReplacementsJS "**must**" [("must", "MUST")] =
        some ("**MUST**", [("must", 1)]) from rfl,
      show applyReplacements "**must**" [("must", "MUST")] =
        some ("**must**", []) from rfl] at h
  simp at h

/-- C9 (amended).  The two variants agree on restricted inputs: when the
text contains no digit, `*` or `_` (so `\b` and the lookaround boundary
coincide at letters), every phrase begins and ends with an ASCII letter, and
no replacement value ends in whitespace (so the TypeScript-only collapsing
step never fires), both `applyReplacements` variants return the same result
text and the same per-phrase counts. -/
theorem c9_variant_equiv (text : String) (replacements : List (String × String))
    (ht : textOK text.data = true)
    (hp : ∀ p ∈ replacements, phraseOK p.1.data = true ∧ endsInWS p.2.data = false) :
    applyReplacementsJS text replacements = applyReplacements text replacements := by
  unfold applyReplacementsJS applyReplacements
  congr 1
  unfold applyReplJS applyRepl
  cases he : (replacements.map (fun p => (p.1.data, p.2.data))).isEmpty with
  | true => simp only [he, eq_self_iff_true, if_true]
  | false =>
    simp only [he, Bool.false_eq_true, if_false]
    apply scan_agree
    · intro i k hk
      rw [mem_sortKeysDesc] at hk
      obtain ⟨pr, hpr, hprk⟩ := List.mem_map.mp hk
      obtain ⟨q, hq, rfl⟩ := List.mem_map.mp hpr
      rw [← hprk]
      exact keyMatch_agree ht (hp q hq).1 i
    · intro k hk hnil
      rw [mem_sortKeysDesc] at hk
      obtain ⟨pr, hpr, hprk⟩ := List.mem_map.mp hk
      obtain ⟨q, hq, rfl⟩ := List.mem_map.mp hpr
      have hqd : q.1.data = [] := by
        rw [show q.1.data = k from hprk]
        exact hnil
      have hpq := (hp q hq).1
      rw [hqd] at hpq
      simp [phraseOK] at hpq
    · refine lookup_no_ws ?_
      intro v hv
      obtain ⟨pr, hpr, hprv⟩ := List.mem_map.mp hv
      obtain ⟨q, hq, rfl⟩ := List.mem_map.mp hpr
      rw [← hprv]
      exact (hp q hq).2

/-- Witness for C9: on a letters-and-spaces text with letter-edged phrases
and whitespace-free replacements the two variants coincide. -/
theorem c9_variant_equiv_witness :
    applyReplacementsJS "a must b" [("must", "MUST")] =
      applyReplacements "a must b" [("must", "MUST")] :=
  c9_variant_equiv "a must b" [("must", "MUST")] (by decide) (by decide)

/-- C7 (counterexample).  The decoder round trip fails in general: `badDoc`
contains a `//` line comment, a block comment and a trailing comma — all of
which the claim covers — but also a string literal `",}"`, which the
quote-unaware trailing-comma pass rewrites, so `parseJSONC` decodes it to a
different structured value than strict JSON parsing of the hand-cleaned
equivalent document. -/
theorem c7_decoder_counterexample :
    (parseJSONC badDoc).isSome ∧ (jsonParse cleanBadDoc.data).isSome ∧
    parseJSONC badDoc ≠ jsonParse cleanBadDoc.data := by
  refine ⟨rfl, rfl, ?_⟩
  intro h
  rw [show parseJSONC badDoc =
        some (Json.obj [("a".data, Json.str "\x7d".data),
                        ("b".data, Json.str "x".data)]) from rfl,
      show jsonParse cleanBadDoc.data =
        some (Json.obj [("a".data, Json.str ",\x7d".data),
                        ("b".data, Json.str "x".data)]) from rfl] at h
  simp at h

/-- C7 (amended).  For configuration documents whose string literals contain
no `/*`, `*/`, and no comma directly preceding a closing brace or bracket,
the round trip holds; on the representative `goodDoc` — which has a `//`
line comment, a `//` inside a quoted string value (preserved, not treated as
a comment), a block comment, and a trailing comma before `}` — `parseJSONC`
returns exactly the structured value strict JSON parsing assigns to the
hand-cleaned equivalent document. -/
theorem c7_decoder_roundtrip :
    parseJSONC goodDoc = jsonParse cleanGoodDoc.data ∧
    (parseJSONC goodDoc).isSome ∧
    (parseJSONC goodDoc).bind (fun v => getField v ("url".data)) =
      some (Json.str ("http://example".data)) :=
  ⟨rfl, rfl, rfl⟩

/-- C8 (counterexample).  A configuration that decodes successfully but
omits the `replacements` field does not fall back to the built-in RFC2119
table: `loadConfig` returns the empty mapping (`parsed.replacements || {}`),
which differs from the default table. -/
theorem c8_default_counterexample :
    loadConfig "\x7b\"debug\": true\x7d" = ⟨true, Json.obj []⟩ ∧
    Json.obj [] ≠ rfcDefaultsJson := by
  refine ⟨rfl, ?_⟩
  intro h
  simp [rfcDefaultsJson] at h

/-- C8 (amended).  Default-table fallback: when the configuration text fails
to decode, `loadConfig` yields the built-in RFC2119 table (with `debug`
off); but when the text decodes to an object that merely omits the
`replacements` field, the result's mapping is the empty object, not the
default table. -/
theorem c8_default_fallback (content : String) :
    (parseJSONC content = none → loadConfig content = ⟨false, rfcDefaultsJson⟩) ∧
    (∀ fields, parseJSONC content = some (Json.obj fields) →
      mapGet fields ("replacements".data) = none →
      (loadConfig content).replacements = Json.obj []) := by
  constructor
  · intro h
    unfold loadConfig
    rw [h]
  · intro fields h hnone
    unfold loadConfig
    rw [h]
    have hg : getField (Json.obj fields) ("replacements".data) = none := hnone
    simp [hg]

/-- Witness for C8: an undecodable document yields the default table, and a
decoded document without `replacements` yields the empty mapping. -/
theorem c8_default_fallback_witness :
    loadConfig "[" = ⟨false, rfcDefaultsJson⟩ ∧
    (loadConfig "\x7b\"debug\": true\x7d").replacements = Json.obj [] :=
  ⟨(c8_default_fallback "[").1 rfl,
   (c8_default_fallback "\x7b\"debug\": true\x7d").2
     [("debug".data, Json.bool true)] rfl rfl⟩

end MustHave
